import Mathlib

/-!
Verification development for the codebase-indexer service
(docker/codebase-indexer: app.py, utils.py, watcher.py).

The Python source is shallowly embedded: pure computations become Lean
functions, the mutable registry and qdrant collections become explicit
state records, and external collaborators (filesystem walk results, the
embedding service, qdrant call outcomes) become explicit oracle
parameters.  Machine strings are modelled as Lean `String`s where only
whitespace-blankness matters, and as lists of Unicode code points
(`PyStr`) where byte-level decoding matters.
-/

namespace CodebaseIndexer

/-! ## Python string model -/

/-- Code points of a Python `str` (a Python string is a sequence of code
points; `latin-1` decoding yields points 0..255, `utf-8` decoding yields
Unicode scalar values). -/
abbrev PyStr := List Nat

/-- The ASCII whitespace code points recognised by Python `str.strip()`
(space, tab, newline, carriage return, vertical tab, form feed). -/
def isPyWs (c : Nat) : Bool :=
  c = 32 || c = 9 || c = 10 || c = 13 || c = 11 || c = 12

/-- Truthiness of `not s.strip()` for a Python string: true iff every
character is whitespace (in particular for the empty string).  The source
only ever uses `s.strip()` for its truthiness (validators in `app.py`,
the filter in `get_embeddings`). -/
def pyBlank (s : String) : Bool :=
  s.data.all (fun c => isPyWs c.toNat)

/-- Python slice `s[a:b]` for non-negative indices (clamping semantics). -/
def pySlice (s : PyStr) (a b : Nat) : PyStr :=
  (s.take b).drop a

/-! ## Batching loop

`for i in range(0, len(l), bs): batch = l[i:i+bs]` — the slice loop used
by both `get_embeddings` (batch_size 32) and `store_chunks_multi`
(batch_size 100) in `utils.py`.  Recursion is driven by a fuel counter
initialised to `l.length`, which suffices whenever `0 < bs`; for `bs = 0`
Python `range` would raise, and the model returns `[]` there, so every
theorem about batching assumes `0 < bs`. -/

def batchesOfGo (bs : Nat) : Nat → List α → List (List α)
  | _, [] => []
  | 0, _ :: _ => []
  | fuel + 1, a :: t => ((a :: t).take bs) :: batchesOfGo bs fuel ((a :: t).drop bs)

def batchesOf (bs : Nat) (l : List α) : List (List α) :=
  if bs = 0 then [] else batchesOfGo bs l.length l

theorem batchesOfGo_flatten (bs : Nat) (hbs : 0 < bs) :
    ∀ fuel (l : List α), l.length ≤ fuel → (batchesOfGo bs fuel l).flatten = l := by
  intro fuel
  induction fuel with
  | zero =>
    intro l hl
    have : l = [] := List.length_eq_zero.mp (Nat.le_zero.mp hl)
    subst this
    rfl
  | succ fuel ih =>
    intro l hl
    match l with
    | [] => rfl
    | a :: t =>
      simp only [batchesOfGo, List.flatten_cons]
      rw [ih ((a :: t).drop bs) (by simp only [List.length_drop]; simp at hl ⊢; omega)]
      exact List.take_append_drop bs (a :: t)

theorem batchesOfGo_mem (bs : Nat) (hbs : 0 < bs) :
    ∀ fuel (l : List α) (b : List α), l.length ≤ fuel →
      b ∈ batchesOfGo bs fuel l → b.length ≤ bs ∧ b ≠ [] := by
  intro fuel
  induction fuel with
  | zero =>
    intro l b hl hb
    have : l = [] := List.length_eq_zero.mp (Nat.le_zero.mp hl)
    subst this
    simp [batchesOfGo] at hb
  | succ fuel ih =>
    intro l b hl hb
    match l with
    | [] => simp [batchesOfGo] at hb
    | a :: t =>
      simp only [batchesOfGo, List.mem_cons] at hb
      rcases hb with hb | hb
      · subst hb
        refine ⟨List.length_take_le bs (a :: t), ?_⟩
        intro hc
        have : (List.take bs (a :: t)).length = 0 := by rw [hc]; rfl
        rw [List.length_take] at this
        simp at this
        omega
      · exact ih ((a :: t).drop bs) b
          (by simp only [List.length_drop]; simp at hl ⊢; omega) hb

theorem batchesOfGo_length (bs : Nat) (hbs : 0 < bs) :
    ∀ fuel (l : List α), l.length ≤ fuel →
      (batchesOfGo bs fuel l).length = (l.length + bs - 1) / bs := by
  intro fuel
  induction fuel with
  | zero =>
    intro l hl
    have : l = [] := List.length_eq_zero.mp (Nat.le_zero.mp hl)
    subst this
    simp [batchesOfGo]
    rw [Nat.div_eq_of_lt (by omega)]
  | succ fuel ih =>
    intro l hl
    match l with
    | [] =>
      simp [batchesOfGo]
      rw [Nat.div_eq_of_lt (by omega)]
    | a :: t =>
      simp only [batchesOfGo, List.length_cons]
      rw [ih ((a :: t).drop bs) (by simp only [List.length_drop]; simp at hl ⊢; omega)]
      simp only [List.length_drop, List.length_cons]
      rcases Nat.lt_or_ge (t.length + 1) bs with hlt | hge
      · have hdz : t.length + 1 - bs = 0 := by omega
        rw [hdz]
        rw [Nat.div_eq_of_lt (by omega)]
        have h1b : 1 * bs ≤ t.length + 1 + bs - 1 := by omega
        have h2b : t.length + 1 + bs - 1 < (1 + 1) * bs := by omega
        rw [Nat.div_eq_of_lt_le h1b h2b]
      · have heq : t.length + 1 + bs - 1 = (t.length + 1 - bs + bs - 1) + bs := by omega
        rw [heq, Nat.add_div_right _ hbs]

theorem batchesOf_flatten (bs : Nat) (l : List α) (hbs : 0 < bs) :
    (batchesOf bs l).flatten = l := by
  unfold batchesOf
  rw [if_neg (by omega)]
  exact batchesOfGo_flatten bs hbs l.length l (Nat.le_refl _)

theorem batchesOf_mem (bs : Nat) (l : List α) (b : List α) (hbs : 0 < bs)
    (hb : b ∈ batchesOf bs l) : b.length ≤ bs ∧ b ≠ [] := by
  unfold batchesOf at hb
  rw [if_neg (by omega)] at hb
  exact batchesOfGo_mem bs hbs l.length l b (Nat.le_refl _) hb

theorem batchesOf_length (bs : Nat) (l : List α) (hbs : 0 < bs) :
    (batchesOf bs l).length = (l.length + bs - 1) / bs := by
  unfold batchesOf
  rw [if_neg (by omega)]
  exact batchesOfGo_length bs hbs l.length l (Nat.le_refl _)

/-! ## Embedding batcher (`get_embeddings`, utils.py)

The external embedding service (voyage `POST /v1/embeddings`) is modelled
from its boundary contract (spec section 6): it returns exactly one
vector per input string of a batch, in the same order; so a service call
on `batch` is `batch.map emb` for an oracle `emb`.  A transport failure
aborts the whole call in the source; the theorems below describe the
successful runs. -/

/-- The sequence of service-call inputs made by `get_embeddings texts bs`:
blank texts are filtered out first, then the remaining texts are cut into
consecutive slices of at most `bs` elements. -/
def embeddingCalls (texts : List String) (batch_size : Nat) : List (List String) :=
  batchesOf batch_size (texts.filter (fun t => !pyBlank t))

/-- `get_embeddings` from utils.py on a list input: filter blank texts,
return `[]` when nothing remains, otherwise concatenate the per-batch
service results in call order. -/
def get_embeddings (texts : List String) (batch_size : Nat) (emb : String → V) : List V :=
  let kept := texts.filter (fun t => !pyBlank t)
  if kept.isEmpty then []
  else ((batchesOf batch_size kept).map (fun batch => batch.map emb)).flatten

theorem get_embeddings_eq_map (texts : List String) (bs : Nat) (emb : String → V)
    (hbs : 0 < bs) :
    get_embeddings texts bs emb = (texts.filter (fun t => !pyBlank t)).map emb := by
  unfold get_embeddings
  by_cases hk : texts.filter (fun t => !pyBlank t) = []
  · rw [hk]
    simp
  · rw [if_neg (by simpa [List.isEmpty_iff] using hk)]
    rw [← List.map_flatten, batchesOf_flatten _ _ hbs]

/-- C4: `get_embeddings` filters blank texts, batches the rest into
consecutive slices of at most `batch_size` elements, issues one service
call per batch, and returns one vector per non-blank input text in input
order. -/
theorem get_embeddings_spec (texts : List String) (bs : Nat) (emb : String → V)
    (hbs : 0 < bs) :
    get_embeddings texts bs emb = (texts.filter (fun t => !pyBlank t)).map emb ∧
    (embeddingCalls texts bs).flatten = texts.filter (fun t => !pyBlank t) ∧
    (∀ b ∈ embeddingCalls texts bs, b.length ≤ bs ∧ b ≠ []) ∧
    (embeddingCalls texts bs).length =
      ((texts.filter (fun t => !pyBlank t)).length + bs - 1) / bs := by
  refine ⟨get_embeddings_eq_map texts bs emb hbs, ?_, ?_, ?_⟩
  · exact batchesOf_flatten _ _ hbs
  · intro b hb
    exact batchesOf_mem _ _ b hbs hb
  · exact batchesOf_length _ _ hbs

/-- C4 witness: four texts, one blank, batch size 2: three vectors in
input order, two service calls of sizes 2 and 1. -/
theorem get_embeddings_spec_witness :
    0 < 2 ∧
    get_embeddings ["a", "  ", "b", "c"] 2 String.length = [1, 1, 1] ∧
    embeddingCalls ["a", "  ", "b", "c"] 2 = [["a", "b"], ["c"]] :=
  ⟨by decide,
   ((get_embeddings_spec ["a", "  ", "b", "c"] 2 String.length (by decide)).1.trans
     (by decide)),
   by decide⟩


/-! ## Byte decoding (`content.decode("utf-8")` with `latin-1` fallback)

Python strict UTF-8 decoding accepts exactly the concatenations of the
UTF-8 encodings of Unicode scalar values.  The decoder below reads a lead
byte, takes the number of bytes the lead announces, computes the code
point, and accepts iff re-encoding the code point reproduces exactly the
consumed bytes (which rejects stray continuation bytes, malformed
continuations and overlong forms) and the code point is a scalar value
(no surrogates, at most U+10FFFF).  Recursion is fuelled by the byte
count; each accepted code point consumes at least one byte, so the fuel
never runs out on an accepted input.  `latin-1` decoding never fails:
each byte becomes the code point of the same value. -/

def utf8EncodeChar (c : Nat) : List Nat :=
  if c < 0x80 then [c]
  else if c < 0x800 then [0xC0 + c / 64, 0x80 + c % 64]
  else if c < 0x10000 then [0xE0 + c / 4096, 0x80 + (c / 64) % 64, 0x80 + c % 64]
  else [0xF0 + c / 262144, 0x80 + (c / 4096) % 64, 0x80 + (c / 64) % 64, 0x80 + c % 64]

/-- `bytes(s, "utf-8")` for a Python string `s`. -/
def utf8Encode (s : PyStr) : List Nat :=
  (s.map utf8EncodeChar).flatten

/-- A Unicode scalar value: outside the surrogate range and at most
U+10FFFF. -/
def utf8Scalar (v : Nat) : Bool :=
  (v < 0xD800 || 0xE000 ≤ v) && v < 0x110000

/-- Total byte count of a UTF-8 sequence as announced by its lead byte;
0 marks an invalid lead byte. -/
def utf8LeadLen (b : Nat) : Nat :=
  if b < 0x80 then 1
  else if b < 0xC0 then 0
  else if b < 0xE0 then 2
  else if b < 0xF0 then 3
  else if b < 0xF8 then 4
  else 0

/-- Code point encoded by a 1-4 byte UTF-8 sequence (assuming the length
matches the lead byte; junk value otherwise, rejected by re-encoding). -/
def utf8Val (bytes : List Nat) : Nat :=
  match bytes with
  | [b] => b
  | [b, c1] => (b - 0xC0) * 64 + (c1 - 0x80)
  | [b, c1, c2] => (b - 0xE0) * 4096 + (c1 - 0x80) * 64 + (c2 - 0x80)
  | [b, c1, c2, c3] =>
    (b - 0xF0) * 262144 + (c1 - 0x80) * 4096 + (c2 - 0x80) * 64 + (c3 - 0x80)
  | _ => 0

def utf8DecodeGo : Nat → List Nat → Option PyStr
  | _, [] => some []
  | 0, _ :: _ => none
  | fuel + 1, b :: rest =>
    let n := utf8LeadLen b
    let taken := (b :: rest).take n
    let v := utf8Val taken
    if n ≠ 0 ∧ taken.length = n ∧ utf8Scalar v = true ∧ utf8EncodeChar v = taken then
      match utf8DecodeGo fuel (rest.drop (n - 1)) with
      | some s => some (v :: s)
      | none => none
    else none

/-- Python `content.decode("utf-8")`: `some` code points on valid strict
UTF-8, `none` on a decode error. -/
def utf8Decode? (bs : List Nat) : Option PyStr :=
  utf8DecodeGo bs.length bs

theorem utf8DecodeGo_encode :
    ∀ fuel (bs : List Nat) (s : PyStr),
      utf8DecodeGo fuel bs = some s → utf8Encode s = bs := by
  intro fuel
  induction fuel with
  | zero =>
    intro bs s h
    match bs with
    | [] =>
      simp only [utf8DecodeGo, Option.some.injEq] at h
      subst h
      rfl
    | b :: rest => simp [utf8DecodeGo] at h
  | succ fuel ih =>
    intro bs s h
    match bs with
    | [] =>
      simp only [utf8DecodeGo, Option.some.injEq] at h
      subst h
      rfl
    | b :: rest =>
      simp only [utf8DecodeGo] at h
      by_cases hcond : utf8LeadLen b ≠ 0 ∧
          ((b :: rest).take (utf8LeadLen b)).length = utf8LeadLen b ∧
          utf8Scalar (utf8Val ((b :: rest).take (utf8LeadLen b))) = true ∧
          utf8EncodeChar (utf8Val ((b :: rest).take (utf8LeadLen b)))
            = (b :: rest).take (utf8LeadLen b)
      · rw [if_pos hcond] at h
        obtain ⟨hn, hlen, hsc, henc⟩ := hcond
        rcases heq : utf8DecodeGo fuel (rest.drop (utf8LeadLen b - 1)) with _ | s0
        · rw [heq] at h
          simp at h
        · rw [heq] at h
          simp only [Option.some.injEq] at h
          subst h
          simp only [utf8Encode, List.map_cons, List.flatten_cons]
          rw [henc]
          have htail : utf8Encode s0 = rest.drop (utf8LeadLen b - 1) := ih _ _ heq
          rw [← utf8Encode, htail]
          obtain ⟨k, hk⟩ : ∃ k, utf8LeadLen b = k + 1 :=
            ⟨utf8LeadLen b - 1, by omega⟩
          rw [hk]
          simp only [List.take_succ_cons, Nat.add_sub_cancel, List.cons_append]
          rw [List.take_append_drop]
      · rw [if_neg hcond] at h
        exact absurd h (by simp)

theorem utf8Decode_encode (bs : List Nat) (s : PyStr) :
    utf8Decode? bs = some s → utf8Encode s = bs :=
  utf8DecodeGo_encode bs.length bs s

/-! ## Chunker (`chunk_code_file`, utils.py)

The tree-sitter parser is an external collaborator: it is modelled as a
function from the parsed bytes to a tree, given by its root node's
point span and the list of the root's direct children (the only parts of
the tree the source reads).  tree-sitter guarantees that node byte spans
lie inside the parsed byte string; theorems assume that as `TreeWF`. -/

structure TSPoint where
  row : Nat
  col : Nat
deriving DecidableEq

structure TSNode where
  type : String
  start_byte : Nat
  end_byte : Nat
  start_point : TSPoint
  end_point : TSPoint
deriving DecidableEq

structure TSTree where
  root_start_point : TSPoint
  root_end_point : TSPoint
  children : List TSNode
deriving DecidableEq

/-- Node byte spans produced by a real parser lie inside the parsed byte
string (here `len` is the length of the bytes handed to `parser.parse`). -/
def TreeWF (t : TSTree) (len : Nat) : Prop :=
  ∀ n ∈ t.children, n.start_byte ≤ n.end_byte ∧ n.end_byte ≤ len

/-- `CodeChunk` dataclass from utils.py, generic in the representation of
the `content` string. -/
structure CodeChunk (σ : Type) where
  content : σ
  chunk_type : String
  start_byte : Nat
  end_byte : Nat
  start_point : TSPoint
  end_point : TSPoint
  file_path : String
deriving DecidableEq

/-- Decoding in `chunk_code_file`: try UTF-8, fall back to latin-1 (which
always succeeds, each byte becoming the equal code point), so the
source's second `UnicodeDecodeError` branch (return `[]`) is
unreachable. -/
def pyDecodeFile (content : List Nat) : PyStr :=
  match utf8Decode? content with
  | some s => s
  | none => content

/-- Loop body of `chunk_code_file`: a `function` or `class` chunk for a
function-definition / class-definition child, nothing otherwise.  The
content is the decoded string sliced at the node's byte offsets (the
source indexes the character sequence with byte offsets). -/
def nodeChunk? (file_path : String) (decoded : PyStr) (node : TSNode) :
    Option (CodeChunk PyStr) :=
  if node.type = "function_definition" ∨ node.type = "class_definition" then
    some
      ⟨pySlice decoded node.start_byte node.end_byte,
        if node.type = "function_definition" then "function" else "class",
        node.start_byte, node.end_byte, node.start_point, node.end_point,
        file_path⟩
  else none

/-- `chunk_code_file` from utils.py: decode the raw bytes, parse the
UTF-8 re-encoding of the decoded text, emit the file-level chunk (byte
span `[0, len(rawBytes)]`, the root's point span), then one chunk per
function-definition / class-definition direct child of the root. -/
def chunk_code_file (file_path : String) (content : List Nat)
    (parser : List Nat → TSTree) : List (CodeChunk PyStr) :=
  let decoded_content := pyDecodeFile content
  let tree := parser (utf8Encode decoded_content)
  ⟨decoded_content, "file", 0, content.length,
      tree.root_start_point, tree.root_end_point, file_path⟩ ::
    tree.children.filterMap (nodeChunk? file_path decoded_content)

theorem nodeChunk_counts (fp : String) (decoded : PyStr) :
    ∀ children : List TSNode,
      ((children.filterMap (nodeChunk? fp decoded)).filter
          (fun c => c.chunk_type = "file")).length = 0 ∧
      ((children.filterMap (nodeChunk? fp decoded)).filter
          (fun c => c.chunk_type = "function")).length
        = (children.filter (fun n => n.type = "function_definition")).length ∧
      ((children.filterMap (nodeChunk? fp decoded)).filter
          (fun c => c.chunk_type = "class")).length
        = (children.filter (fun n => n.type = "class_definition")).length := by
  intro children
  induction children with
  | nil => simp
  | cons n t ih =>
    by_cases hf : n.type = "function_definition"
    · simp only [List.filterMap_cons, nodeChunk?, hf, if_pos (Or.inl rfl), if_pos,
        List.filter_cons]
      simp only [List.filter_cons] at ih ⊢
      simp [hf, ih.1, ih.2.1, ih.2.2]
    · by_cases hc : n.type = "class_definition"
      · simp only [List.filterMap_cons, nodeChunk?, hc, if_pos (Or.inr rfl),
          List.filter_cons]
        simp [hf, hc, ih.1, ih.2.1, ih.2.2]
      · simp only [List.filterMap_cons, nodeChunk?,
          if_neg (by simp [hf, hc] : ¬(n.type = "function_definition" ∨
            n.type = "class_definition"))]
        simp [hf, hc, ih.1, ih.2.1, ih.2.2]

theorem chunk_code_file_eq (fp : String) (content : List Nat)
    (parser : List Nat → TSTree) :
    chunk_code_file fp content parser =
      ⟨pyDecodeFile content, "file", 0, content.length,
          (parser (utf8Encode (pyDecodeFile content))).root_start_point,
          (parser (utf8Encode (pyDecodeFile content))).root_end_point, fp⟩ ::
        (parser (utf8Encode (pyDecodeFile content))).children.filterMap
          (nodeChunk? fp (pyDecodeFile content)) := rfl

theorem chunk_tail_mem (fp : String) (decoded : PyStr) (children : List TSNode)
    (c : CodeChunk PyStr)
    (hc : c ∈ children.filterMap (nodeChunk? fp decoded)) :
    ∃ n ∈ children,
      (n.type = "function_definition" ∨ n.type = "class_definition") ∧
      c = ⟨pySlice decoded n.start_byte n.end_byte,
            if n.type = "function_definition" then "function" else "class",
            n.start_byte, n.end_byte, n.start_point, n.end_point, fp⟩ := by
  obtain ⟨n, hn, hsome⟩ := List.mem_filterMap.mp hc
  unfold nodeChunk? at hsome
  by_cases ht : n.type = "function_definition" ∨ n.type = "class_definition"
  · rw [if_pos ht] at hsome
    cases hsome
    exact ⟨n, hn, ht, rfl⟩
  · rw [if_neg ht] at hsome
    simp at hsome

/-- The amended chunker contract.  For a file whose bytes decode (always,
via the latin-1 fallback), the chunk list starts with exactly one
file-typed chunk carrying the whole decoded content and byte span
`[0, rawByteCount]`, followed by exactly one `function` (resp. `class`)
chunk per function-definition (resp. class-definition) direct child of
the root — other node types and nested definitions produce nothing —
each carrying the decoded text sliced at the node's byte offsets and the
node's own spans.  Those spans lie within `[0, len(utf8(decoded))]`; when
the file decoded as UTF-8 this equals the file chunk's range
`[0, rawByteCount]`, but under the latin-1 fallback it may exceed it. -/
def ChunkerSpec (file_path : String) (content : List Nat)
    (parser : List Nat → TSTree) : Prop :=
  let decoded := pyDecodeFile content
  let tree := parser (utf8Encode decoded)
  let cs := chunk_code_file file_path content parser
  cs.get? 0 = some ⟨decoded, "file", 0, content.length,
      tree.root_start_point, tree.root_end_point, file_path⟩ ∧
  cs.drop 1 = tree.children.filterMap (nodeChunk? file_path decoded) ∧
  (cs.filter (fun c => c.chunk_type = "file")).length = 1 ∧
  (cs.filter (fun c => c.chunk_type = "function")).length
    = (tree.children.filter (fun n => n.type = "function_definition")).length ∧
  (cs.filter (fun c => c.chunk_type = "class")).length
    = (tree.children.filter (fun n => n.type = "class_definition")).length ∧
  (∀ c ∈ cs.drop 1, ∃ n ∈ tree.children,
      (n.type = "function_definition" ∨ n.type = "class_definition") ∧
      c.content = pySlice decoded n.start_byte n.end_byte ∧
      c.start_byte = n.start_byte ∧ c.end_byte = n.end_byte ∧
      c.start_point = n.start_point ∧ c.end_point = n.end_point ∧
      c.file_path = file_path) ∧
  (∀ c ∈ cs.drop 1,
      c.start_byte ≤ c.end_byte ∧ c.end_byte ≤ (utf8Encode decoded).length) ∧
  (∀ s, utf8Decode? content = some s →
      ∀ c ∈ cs.drop 1, c.end_byte ≤ content.length)

/-- C3 (amended): the chunker contract above holds for every file and
every parser whose node spans lie inside the parsed bytes. -/
theorem chunk_code_file_spec (file_path : String) (content : List Nat)
    (parser : List Nat → TSTree)
    (hwf : TreeWF (parser (utf8Encode (pyDecodeFile content)))
        (utf8Encode (pyDecodeFile content)).length) :
    ChunkerSpec file_path content parser := by
  unfold ChunkerSpec
  have hcounts := nodeChunk_counts file_path (pyDecodeFile content)
    (parser (utf8Encode (pyDecodeFile content))).children
  refine ⟨rfl, rfl, ?_, ?_, ?_, ?_, ?_, ?_⟩
  · rw [chunk_code_file_eq, List.filter_cons]
    simp [hcounts.1]
  · rw [chunk_code_file_eq, List.filter_cons]
    rw [if_neg (by simp)]
    exact hcounts.2.1
  · rw [chunk_code_file_eq, List.filter_cons]
    rw [if_neg (by simp)]
    exact hcounts.2.2
  · intro c hc
    rw [chunk_code_file_eq, List.drop_succ_cons, List.drop_zero] at hc
    obtain ⟨n, hn, ht, hceq⟩ := chunk_tail_mem _ _ _ _ hc
    subst hceq
    exact ⟨n, hn, ht, rfl, rfl, rfl, rfl, rfl, rfl⟩
  · intro c hc
    rw [chunk_code_file_eq, List.drop_succ_cons, List.drop_zero] at hc
    obtain ⟨n, hn, _, hceq⟩ := chunk_tail_mem _ _ _ _ hc
    subst hceq
    exact hwf n hn
  · intro s hs c hc
    rw [chunk_code_file_eq, List.drop_succ_cons, List.drop_zero] at hc
    obtain ⟨n, hn, _, hceq⟩ := chunk_tail_mem _ _ _ _ hc
    have hd : pyDecodeFile content = s := by
      unfold pyDecodeFile
      rw [hs]
    have hlen : (utf8Encode (pyDecodeFile content)).length = content.length := by
      rw [hd, utf8Decode_encode content s hs]
    subst hceq
    calc n.end_byte ≤ (utf8Encode (pyDecodeFile content)).length := (hwf n hn).2
      _ = content.length := hlen

/-- Raw bytes of the source text `def f():\n    s="\xe9"` where `\xe9` is
the single byte 0xE9 (latin-1 `é`): not valid UTF-8, so the chunker falls
back to latin-1, and the UTF-8 re-encoding handed to the parser is one
byte longer than the file. -/
def demoLatinBytes : List Nat :=
  [100, 101, 102, 32, 102, 40, 41, 58, 10, 32, 32, 32, 32, 115, 61, 34, 233, 34]

/-- Parser behaviour of tree-sitter-python on a file that is a single
top-level function definition: one function-definition direct child of
the root spanning the whole input. -/
def wholeInputFnParser (input : List Nat) : TSTree :=
  ⟨⟨0, 0⟩, ⟨1, 9⟩, [⟨"function_definition", 0, input.length, ⟨0, 0⟩, ⟨1, 9⟩⟩]⟩

/-- C3 counterexample: on a latin-1 file the function chunk's byte range
`[0, 19]` does not lie within the file chunk's range `[0, 18]`, because
the parser sees the UTF-8 re-encoding (19 bytes) while the file chunk's
end byte is the raw byte count (18). -/
theorem chunk_latin1_range_counterexample :
    utf8Decode? demoLatinBytes = none ∧
    ((chunk_code_file "a.py" demoLatinBytes wholeInputFnParser).get? 0).map
        (fun c => (c.chunk_type, c.start_byte, c.end_byte))
      = some ("file", 0, 18) ∧
    ((chunk_code_file "a.py" demoLatinBytes wholeInputFnParser).get? 1).map
        (fun c => (c.chunk_type, c.start_byte, c.end_byte))
      = some ("function", 0, 19) ∧
    ¬(19 ≤ 18) := by decide

/-- Raw bytes of the ASCII source text `def f(): pass`. -/
def demoAsciiBytes : List Nat :=
  [100, 101, 102, 32, 102, 40, 41, 58, 32, 112, 97, 115, 115]

/-- C3 witness: the amended chunker contract at a concrete ASCII file
with one top-level function definition. -/
theorem chunk_code_file_spec_witness :
    TreeWF (wholeInputFnParser (utf8Encode (pyDecodeFile demoAsciiBytes)))
        (utf8Encode (pyDecodeFile demoAsciiBytes)).length ∧
    ChunkerSpec "a.py" demoAsciiBytes wholeInputFnParser :=
  ⟨by unfold TreeWF; decide,
   chunk_code_file_spec "a.py" demoAsciiBytes wholeInputFnParser
     (by unfold TreeWF; decide)⟩

/-! ## Vector store adapter (`store_chunks_multi`, utils.py)

Qdrant is modelled at its call boundary: a point is the record handed to
`client.upsert`, and `store_chunks_multi` is described by the sequence of
upsert calls it issues (sub-batches of at most 100 points, in order). -/

/-- `models.PointStruct` as built in `store_chunks_multi`: 0-based
enumeration id, embedding vector, payload copied from the chunk. -/
structure QPoint (V : Type) where
  id : Nat
  vector : V
  content : String
  chunk_type : String
  file_path : String
  start_byte : Nat
  end_byte : Nat
  start_point : TSPoint
  end_point : TSPoint
deriving DecidableEq

/-- `enumerate(zip(chunks, embeddings))` mapped to points: pairing is
truncated to the shorter list, the pairing index is the id. -/
def mkPoints (chunks : List (CodeChunk String)) (embeddings : List V) :
    List (QPoint V) :=
  ((chunks.zip embeddings).enum).map
    (fun p =>
      ⟨p.1, p.2.2, p.2.1.content, p.2.1.chunk_type, p.2.1.file_path,
        p.2.1.start_byte, p.2.1.end_byte, p.2.1.start_point, p.2.1.end_point⟩)

/-- The sequence of `client.upsert` calls issued by `store_chunks_multi`:
the point list cut into consecutive slices of at most 100. -/
def store_chunks_multi (chunks : List (CodeChunk String)) (embeddings : List V) :
    List (List (QPoint V)) :=
  batchesOf 100 (mkPoints chunks embeddings)

/-- C9: `store_chunks_multi` issues `ceil(n/100)` upsert calls of at most
100 points each whose concatenation in call order is the full point list,
and no call at all for an empty point list. -/
theorem store_chunks_batching_spec (chunks : List (CodeChunk String))
    (embeddings : List V) :
    (store_chunks_multi chunks embeddings).length
      = ((mkPoints chunks embeddings).length + 99) / 100 ∧
    (∀ b ∈ store_chunks_multi chunks embeddings, b.length ≤ 100 ∧ b ≠ []) ∧
    (store_chunks_multi chunks embeddings).flatten = mkPoints chunks embeddings ∧
    (mkPoints chunks embeddings = [] → store_chunks_multi chunks embeddings = []) := by
  refine ⟨?_, ?_, ?_, ?_⟩
  · have h := batchesOf_length 100 (mkPoints chunks embeddings) (by omega)
    have h99 : (mkPoints chunks embeddings).length + 100 - 1
        = (mkPoints chunks embeddings).length + 99 := by omega
    rw [store_chunks_multi, h, h99]
  · intro b hb
    exact batchesOf_mem _ _ b (by omega) hb
  · exact batchesOf_flatten _ _ (by omega)
  · intro h
    rw [store_chunks_multi, h]
    rfl

/-- Chunk used by concrete witnesses. -/
def demoChunkA : CodeChunk String :=
  ⟨"def f(): pass", "function", 0, 13, ⟨0, 0⟩, ⟨0, 13⟩, "a.py"⟩

/-- C9 witness: one chunk, one embedding: a single upsert call carrying
the single point. -/
theorem store_chunks_batching_spec_witness :
    store_chunks_multi [demoChunkA] [(7 : Nat)]
      = [[⟨0, 7, "def f(): pass", "function", "a.py", 0, 13, ⟨0, 0⟩, ⟨0, 13⟩⟩]] ∧
    (store_chunks_multi [demoChunkA] [(7 : Nat)]).length
      = ((mkPoints [demoChunkA] [(7 : Nat)]).length + 99) / 100 :=
  ⟨by decide, (store_chunks_batching_spec [demoChunkA] [(7 : Nat)]).1⟩

/-! ## Index correspondence between a list and its filtered sublist -/

/-- Index in `l` of the i-th element kept by `l.filter q` (junk when no
such element exists). -/
def nthKeptIdx (q : α → Bool) : List α → Nat → Nat
  | [], _ => 0
  | a :: l, i =>
    if q a then
      match i with
      | 0 => 0
      | j + 1 => nthKeptIdx q l j + 1
    else nthKeptIdx q l i + 1

theorem nthKeptIdx_get (q : α → Bool) :
    ∀ (l : List α) (i : Nat), i < (l.filter q).length →
      l[nthKeptIdx q l i]? = (l.filter q)[i]? := by
  intro l
  induction l with
  | nil => intro i h; simp at h
  | cons a l ih =>
    intro i h
    by_cases hq : q a
    · match i with
      | 0 => simp [nthKeptIdx, hq, List.filter_cons_of_pos hq]
      | j + 1 =>
        rw [List.filter_cons_of_pos hq] at h ⊢
        simp only [List.length_cons, Nat.add_lt_add_iff_right] at h
        simp only [nthKeptIdx, if_pos hq, List.getElem?_cons_succ]
        exact ih j h
    · rw [List.filter_cons_of_neg hq] at h ⊢
      simp only [nthKeptIdx, if_neg hq, List.getElem?_cons_succ]
      exact ih i h

theorem nthKeptIdx_ge (q : α → Bool) :
    ∀ (l : List α) (i : Nat), i < (l.filter q).length → i ≤ nthKeptIdx q l i := by
  intro l
  induction l with
  | nil => intro i h; simp at h
  | cons a l ih =>
    intro i h
    by_cases hq : q a
    · match i with
      | 0 => exact Nat.zero_le _
      | j + 1 =>
        rw [List.filter_cons_of_pos hq] at h
        simp only [List.length_cons, Nat.add_lt_add_iff_right] at h
        simp only [nthKeptIdx, if_pos hq]
        exact Nat.succ_le_succ (ih j h)
    · rw [List.filter_cons_of_neg hq] at h
      simp only [nthKeptIdx, if_neg hq]
      exact Nat.le_succ_of_le (ih i h)

theorem nthKeptIdx_gt (q : α → Bool) :
    ∀ (l : List α) (i : Nat), i < (l.filter q).length →
      (∃ j a, j ≤ i ∧ l[j]? = some a ∧ q a = false) → i < nthKeptIdx q l i := by
  intro l
  induction l with
  | nil => intro i h; simp at h
  | cons a l ih =>
    intro i h hdrop
    by_cases hq : q a
    · match i with
      | 0 =>
        obtain ⟨j, a0, hj, hget, hfalse⟩ := hdrop
        have : j = 0 := Nat.le_zero.mp hj
        subst this
        simp only [List.getElem?_cons_zero, Option.some.injEq] at hget
        subst hget
        rw [hq] at hfalse
        cases hfalse
      | j + 1 =>
        rw [List.filter_cons_of_pos hq] at h
        simp only [List.length_cons, Nat.add_lt_add_iff_right] at h
        simp only [nthKeptIdx, if_pos hq]
        obtain ⟨j0, a0, hj0, hget, hfalse⟩ := hdrop
        match j0 with
        | 0 =>
          simp only [List.getElem?_cons_zero, Option.some.injEq] at hget
          subst hget
          rw [hq] at hfalse
          cases hfalse
        | k + 1 =>
          simp only [List.getElem?_cons_succ] at hget
          have : j < nthKeptIdx q l j :=
            ih j h ⟨k, a0, Nat.le_of_succ_le_succ hj0, hget, hfalse⟩
          omega
    · rw [List.filter_cons_of_neg hq] at h
      simp only [nthKeptIdx, if_neg hq]
      have := nthKeptIdx_ge q l i h
      omega

theorem mkPoints_length (chunks : List (CodeChunk String)) (embs : List V) :
    (mkPoints chunks embs).length = min chunks.length embs.length := by
  simp [mkPoints, List.length_zip]

theorem mkPoints_getElem (chunks : List (CodeChunk String)) (embs : List V)
    (i : Nat) (p : QPoint V) (hp : (mkPoints chunks embs)[i]? = some p) :
    ∃ c e, chunks[i]? = some c ∧ embs[i]? = some e ∧
      p = ⟨i, e, c.content, c.chunk_type, c.file_path, c.start_byte, c.end_byte,
            c.start_point, c.end_point⟩ := by
  unfold mkPoints at hp
  rw [List.getElem?_map] at hp
  rcases he : (chunks.zip embs).enum[i]? with _ | q
  · rw [he] at hp
    cases hp
  · rw [he] at hp
    simp only [Option.map_some', Option.some.injEq] at hp
    rw [List.getElem?_enum] at he
    rcases hz : (chunks.zip embs)[i]? with _ | ab
    · rw [hz] at he
      cases he
    · rw [hz] at he
      simp only [Option.map_some', Option.some.injEq] at he
      obtain ⟨c, e⟩ := ab
      obtain ⟨hc, hee⟩ := List.getElem?_zip_eq_some.mp hz
      subst he
      subst hp
      exact ⟨c, e, hc, hee, rfl⟩

/-- The content of C10: the stored points pair the i-th chunk with the
i-th returned embedding under id `i`, truncated to the shorter list; when
some chunk content is blank, the number of points equals the number of
non-blank contents (strictly fewer than the chunks), and every point at
an index at or after a blank chunk carries the embedding of a strictly
later chunk's content. -/
def ZipPipelineSpec (chunks : List (CodeChunk String)) (emb : String → V) : Prop :=
  let contents := chunks.map (fun c => c.content)
  let kept := contents.filter (fun t => !pyBlank t)
  let embs := get_embeddings contents 32 emb
  let pts := mkPoints chunks embs
  pts.length = min chunks.length embs.length ∧
  (∀ (i : Nat) (p : QPoint V), pts[i]? = some p →
      p.id = i ∧ embs[i]? = some p.vector ∧
      ∃ c, chunks[i]? = some c ∧ p.content = c.content ∧
        p.chunk_type = c.chunk_type ∧ p.file_path = c.file_path ∧
        p.start_byte = c.start_byte ∧ p.end_byte = c.end_byte ∧
        p.start_point = c.start_point ∧ p.end_point = c.end_point) ∧
  ((∃ c ∈ chunks, pyBlank c.content = true) →
      pts.length = kept.length ∧ kept.length < chunks.length) ∧
  (∀ (i : Nat) (p : QPoint V), pts[i]? = some p →
      (∃ j c, j ≤ i ∧ chunks[j]? = some c ∧ pyBlank c.content = true) →
      ∃ k ck, i < k ∧ chunks[k]? = some ck ∧ p.vector = emb ck.content)

/-- C10: the zip/enumerate pairing in `store_chunks_multi` silently
misaligns chunks and embeddings when `get_embeddings` dropped a blank
chunk content. -/
theorem store_points_zip_spec (chunks : List (CodeChunk String))
    (emb : String → V) :
    ZipPipelineSpec chunks emb := by
  unfold ZipPipelineSpec
  have hemb : get_embeddings (chunks.map (fun c => c.content)) 32 emb
      = ((chunks.map (fun c => c.content)).filter (fun t => !pyBlank t)).map emb :=
    get_embeddings_eq_map _ _ _ (by omega)
  refine ⟨mkPoints_length _ _, ?_, ?_, ?_⟩
  · intro i p hp
    obtain ⟨c, e, hc, he, hpe⟩ := mkPoints_getElem _ _ _ _ hp
    subst hpe
    exact ⟨rfl, he, c, hc, rfl, rfl, rfl, rfl, rfl, rfl, rfl⟩
  · intro hex
    obtain ⟨c, hcmem, hcblank⟩ := hex
    have hkle : ((chunks.map (fun c => c.content)).filter
        (fun t => !pyBlank t)).length ≤ chunks.length := by
      calc ((chunks.map (fun c => c.content)).filter (fun t => !pyBlank t)).length
          ≤ (chunks.map (fun c => c.content)).length := List.length_filter_le _ _
        _ = chunks.length := List.length_map _ _
    have hklt : ((chunks.map (fun c => c.content)).filter
        (fun t => !pyBlank t)).length < chunks.length := by
      have hx : ∃ x ∈ chunks.map (fun c => c.content), ¬((fun t => !pyBlank t) x = true) := by
        refine ⟨c.content, List.mem_map_of_mem _ hcmem, ?_⟩
        simp [hcblank]
      have := List.length_filter_lt_length_iff_exists.mpr hx
      calc ((chunks.map (fun c => c.content)).filter (fun t => !pyBlank t)).length
          < (chunks.map (fun c => c.content)).length := this
        _ = chunks.length := List.length_map _ _
    refine ⟨?_, hklt⟩
    rw [mkPoints_length, hemb, List.length_map]
    exact Nat.min_eq_right hkle
  · intro i p hp hblank
    obtain ⟨c, e, hc, he, hpe⟩ := mkPoints_getElem _ _ _ _ hp
    rw [hemb, List.getElem?_map] at he
    rcases hkq : ((chunks.map (fun c => c.content)).filter
        (fun t => !pyBlank t))[i]? with _ | t
    · rw [hkq] at he
      cases he
    · rw [hkq] at he
      simp only [Option.map_some', Option.some.injEq] at he
      have hilt : i < ((chunks.map (fun c => c.content)).filter
          (fun t => !pyBlank t)).length := (List.getElem?_eq_some.mp hkq).1
      obtain ⟨j, cj, hj, hcj, hbj⟩ := hblank
      have hcontj : (chunks.map (fun c => c.content))[j]? = some cj.content := by
        rw [List.getElem?_map, hcj]
        rfl
      have hgt := nthKeptIdx_gt (fun t => !pyBlank t)
        (chunks.map (fun c => c.content)) i hilt
        ⟨j, cj.content, hj, hcontj, by simp [hbj]⟩
      have hget := nthKeptIdx_get (fun t => !pyBlank t)
        (chunks.map (fun c => c.content)) i hilt
      rw [hkq, List.getElem?_map] at hget
      rcases hck : chunks[nthKeptIdx (fun t => !pyBlank t)
          (chunks.map (fun c => c.content)) i]? with _ | ck
      · rw [hck] at hget
        cases hget
      · rw [hck] at hget
        simp only [Option.map_some', Option.some.injEq] at hget
        refine ⟨_, ck, hgt, hck, ?_⟩
        subst hpe
        show e = emb ck.content
        rw [← he, hget]

/-- Blank-content chunk used by concrete witnesses. -/
def demoChunkBlank : CodeChunk String :=
  ⟨"   ", "file", 0, 3, ⟨0, 0⟩, ⟨0, 3⟩, "b.py"⟩

/-- Third chunk used by concrete witnesses. -/
def demoChunkC : CodeChunk String :=
  ⟨"x = 1", "file", 0, 5, ⟨0, 0⟩, ⟨0, 5⟩, "c.py"⟩

/-- C10 witness: three chunks whose middle content is blank; only two
points are stored, the blank chunk's point carries the embedding (here
the string length, 5) of the later chunk's content, and the last chunk
gets no point. -/
theorem store_points_zip_spec_witness :
    mkPoints [demoChunkA, demoChunkBlank, demoChunkC]
        (get_embeddings
          ([demoChunkA, demoChunkBlank, demoChunkC].map (fun c => c.content))
          32 String.length)
      = [⟨0, 13, "def f(): pass", "function", "a.py", 0, 13, ⟨0, 0⟩, ⟨0, 13⟩⟩,
         ⟨1, 5, "   ", "file", "b.py", 0, 3, ⟨0, 0⟩, ⟨0, 3⟩⟩] ∧
    ZipPipelineSpec [demoChunkA, demoChunkBlank, demoChunkC] String.length :=
  ⟨by decide, store_points_zip_spec [demoChunkA, demoChunkBlank, demoChunkC]
    String.length⟩

/-! ## Orchestrator (`manage_repository` / `index_repository`, app.py)

The process-wide registry `REPO_CONFIGS` and the set of qdrant
collections are the explicit state; outcomes of the external calls
(path existence, collection create/delete, the whole walk-embed-upsert
indexing step) are oracles in `Env`.  `HTTPException` outcomes map to
`ApiError`; an exception escaping an `except` block (the compensating
`delete_collection` raising) maps to `internalError`. -/

structure RepoConfig where
  path : String
  language : String
deriving DecidableEq

/-- A value stored in `REPO_CONFIGS`: normally the `{path, language}`
dict; the failed-remove path of `manage_repository` stores the request's
bare `repo_path` string instead (app.py line 128). -/
inductive RegValue where
  | cfg (c : RepoConfig)
  | rawPath (s : String)
deriving DecidableEq

structure AppState where
  repo_configs : List (String × RegValue)
  collections : List String
deriving DecidableEq

inductive ApiError where
  | validationError
  | alreadyExists
  | invalidPath
  | storageError
  | indexingError
  | notFound
  | internalError
deriving DecidableEq

inductive ApiResult where
  | ok
  | err (e : ApiError)
deriving DecidableEq

/-- Outcomes of the external calls an operation makes, per name/path. -/
structure Env where
  pathExists : String → Bool
  createCollectionOk : String → Bool
  indexOk : String → Bool
  deleteCollectionOk : String → Bool

/-- `k in REPO_CONFIGS`. -/
def dictHas (m : List (String × RegValue)) (k : String) : Bool :=
  m.any (fun p => p.1 = k)

/-- `REPO_CONFIGS[k] = v`. -/
def dictSet (m : List (String × RegValue)) (k : String) (v : RegValue) :
    List (String × RegValue) :=
  if dictHas m k then m.map (fun p => if p.1 = k then (k, v) else p)
  else m ++ [(k, v)]

/-- `del REPO_CONFIGS[k]`. -/
def dictDel (m : List (String × RegValue)) (k : String) :
    List (String × RegValue) :=
  m.filter (fun p => p.1 ≠ k)

/-- `GET /collections`: the registry keys. -/
def listRepositories (st : AppState) : List String :=
  st.repo_configs.map (fun p => p.1)

/-- The `add` branch of `manage_repository`: reject blank names
(pydantic validator) / duplicates / missing paths; insert the config;
create the collection (failure: drop the config, `StorageError`); run the
indexing step (failure: drop the config, delete the collection — if that
delete itself raises, the config is already gone, the collection stays
and the error escapes the handler — otherwise `IndexingError`). -/
def addRepository (st : AppState) (env : Env) (name path language : String) :
    AppState × ApiResult :=
  if pyBlank name then (st, .err .validationError)
  else if dictHas st.repo_configs name then (st, .err .alreadyExists)
  else if !env.pathExists path then (st, .err .invalidPath)
  else
    let st1 : AppState :=
      { st with repo_configs := dictSet st.repo_configs name (.cfg ⟨path, language⟩) }
    if !env.createCollectionOk name then
      ({ st1 with repo_configs := dictDel st1.repo_configs name }, .err .storageError)
    else
      let st2 : AppState := { st1 with collections := st1.collections ++ [name] }
      if !env.indexOk name then
        let st3 : AppState := { st2 with repo_configs := dictDel st2.repo_configs name }
        if env.deleteCollectionOk name then
          ({ st3 with collections := st3.collections.erase name }, .err .indexingError)
        else (st3, .err .internalError)
      else (st2, .ok)

/-- The `remove` branch of `manage_repository`: reject blank names /
unknown names; delete the config first, then the collection; if the
collection delete fails, store the request's `repo_path` string under the
name (the source's restore line) and surface `StorageError`. -/
def removeRepository (st : AppState) (env : Env) (name repo_path_req : String) :
    AppState × ApiResult :=
  if pyBlank name then (st, .err .validationError)
  else if !dictHas st.repo_configs name then (st, .err .notFound)
  else
    let st1 : AppState := { st with repo_configs := dictDel st.repo_configs name }
    if env.deleteCollectionOk name then
      ({ st1 with collections := st1.collections.erase name }, .ok)
    else
      ({ st1 with
          repo_configs := dictSet st1.repo_configs name (.rawPath repo_path_req) },
        .err .storageError)

theorem dictDel_dictSet_fresh (m : List (String × RegValue)) (k : String)
    (v : RegValue) (h : dictHas m k = false) :
    dictDel (dictSet m k v) k = m := by
  unfold dictSet
  rw [h]
  simp only [Bool.false_eq_true, if_false]
  unfold dictDel
  rw [List.filter_append]
  have hall : ∀ p ∈ m, p.1 ≠ k := by
    intro p hp
    unfold dictHas at h
    rw [List.any_eq_false] at h
    have := h p hp
    simpa using this
  rw [List.filter_eq_self.mpr (by intro p hp; simpa using hall p hp)]
  simp

theorem erase_append_singleton (l : List String) (a : String) (h : a ∉ l) :
    (l ++ [a]).erase a = l := by
  rw [List.erase_append_right _ h]
  simp

/-- C1 (amended): for a valid unregistered name whose indexing step
fails, `add` removes the just-written config and deletes the just-created
collection, surfaces `IndexingError`, and the net visible state equals
the pre-call state — provided the compensating collection delete itself
succeeds (see `add_compensation_can_leave_collection` for the delete
failure). -/
theorem add_indexing_failure_compensation (st : AppState) (env : Env)
    (name path language : String)
    (hname : pyBlank name = false)
    (hreg : dictHas st.repo_configs name = false)
    (hcoll : name ∉ st.collections)
    (hpath : env.pathExists path = true)
    (hcreate : env.createCollectionOk name = true)
    (hindex : env.indexOk name = false)
    (hdel : env.deleteCollectionOk name = true) :
    addRepository st env name path language = (st, .err .indexingError) ∧
    name ∉ listRepositories st ∧
    name ∉ st.collections := by
  refine ⟨?_, ?_, hcoll⟩
  · unfold addRepository
    rw [hname, hreg, hpath, hcreate, hindex, hdel]
    simp only [Bool.false_eq_true, if_false, Bool.not_true, Bool.not_false, if_true]
    rw [dictDel_dictSet_fresh st.repo_configs name _ hreg]
    rw [erase_append_singleton st.collections name hcoll]
  · intro hmem
    unfold listRepositories at hmem
    obtain ⟨p, hp, hpk⟩ := List.mem_map.mp hmem
    unfold dictHas at hreg
    rw [List.any_eq_false] at hreg
    exact absurd (by simpa using hpk) (by simpa using hreg p hp)

/-- Environment where the indexing step and the compensating collection
delete both fail. -/
def envIndexAndDeleteFail : Env :=
  ⟨fun _ => true, fun _ => true, fun _ => false, fun _ => false⟩

/-- C1 counterexample: if the compensating `delete_collection` call
raises after the indexing failure, the collection named `demo` still
exists after the failed `add` and the surfaced error is the escaping
delete exception, not `IndexingError` — the claimed unconditional
restoration does not hold. -/
theorem add_compensation_can_leave_collection :
    (addRepository ⟨[], []⟩ envIndexAndDeleteFail "demo" "/repos/demo" "python").1
      = ⟨[], ["demo"]⟩ ∧
    "demo" ∈
      (addRepository ⟨[], []⟩ envIndexAndDeleteFail "demo" "/repos/demo" "python").1.collections ∧
    (addRepository ⟨[], []⟩ envIndexAndDeleteFail "demo" "/repos/demo" "python").2
      ≠ .err .indexingError := by decide

/-- Environment where only the indexing step fails. -/
def envIndexFail : Env :=
  ⟨fun _ => true, fun _ => true, fun _ => false, fun _ => true⟩

/-- C1 witness: the compensation theorem at a concrete empty state. -/
theorem add_indexing_failure_compensation_witness :
    pyBlank "demo" = false ∧
    addRepository ⟨[], []⟩ envIndexFail "demo" "/repos/demo" "python"
      = (⟨[], []⟩, .err .indexingError) :=
  ⟨by decide,
   (add_indexing_failure_compensation ⟨[], []⟩ envIndexFail "demo" "/repos/demo"
      "python" (by decide) (by decide) (by decide) (by decide) (by decide)
      (by decide) (by decide)).1⟩

/-- The registered configuration used in the remove scenario. -/
def demoConfig : RepoConfig := ⟨"/repos/demo", "python"⟩

/-- State with one registered repository `demo` and its collection. -/
def stWithDemo : AppState := ⟨[("demo", .cfg demoConfig)], ["demo"]⟩

/-- Environment where only the collection delete fails. -/
def envDeleteFail : Env :=
  ⟨fun _ => true, fun _ => true, fun _ => true, fun _ => false⟩

/-- C2: when the collection delete of `remove` fails, the source stores
the request's `repo_path` (default: the empty string) under the name
instead of restoring the previously stored `{path, language}` config —
the restore comment in the source and the spec say the original config
comes back, the code loses it. -/
theorem remove_restore_bug_eval :
    removeRepository stWithDemo envDeleteFail "demo" ""
      = (⟨[("demo", RegValue.rawPath "")], ["demo"]⟩, .err .storageError) ∧
    RegValue.rawPath "" ≠ RegValue.cfg demoConfig := by decide

/-! ## Query service (`search`, app.py) -/

inductive SearchOutcome (V : Type) where
  | emptyQuery
  | invalidCollection
  | searchFailed
  | results (collection : String) (vector : V) (limit : Nat)
deriving DecidableEq

/-- `POST /search`: the pydantic validator on `Query.text` rejects blank
text before the handler runs; the handler rejects unregistered collection
names before any embedding-service call; otherwise it embeds the query
text (a single-string `get_embeddings` call, hence one single-item
batch), takes the first vector, and issues a limit-5 similarity search.
The second component counts embedding-service calls. -/
def searchOp (registered : List String) (text collection_name : String)
    (emb : String → V) : SearchOutcome V × Nat :=
  if pyBlank text then (.emptyQuery, 0)
  else if !registered.contains collection_name then (.invalidCollection, 0)
  else
    match (get_embeddings [text] 32 emb).head? with
    | some v => (.results collection_name v 5, (embeddingCalls [text] 32).length)
    | none => (.searchFailed, (embeddingCalls [text] 32).length)

/-- C7 (amended): blank text fails with `EmptyQuery` before anything else
(in particular before the registry check); for non-blank text an
unregistered name yields `InvalidCollection` with no embedding-service
call; otherwise exactly one single-item embedding call is made and a
top-5 search with the query's embedding is issued. -/
theorem search_spec (registered : List String) (text name : String)
    (emb : String → V) :
    (pyBlank text = true → searchOp registered text name emb = (.emptyQuery, 0)) ∧
    (pyBlank text = false → registered.contains name = false →
        searchOp registered text name emb = (.invalidCollection, 0)) ∧
    (pyBlank text = false → registered.contains name = true →
        searchOp registered text name emb = (.results name (emb text) 5, 1)) := by
  refine ⟨?_, ?_, ?_⟩
  · intro hb
    simp [searchOp, hb]
  · intro hb hr
    have hnm : name ∉ registered := by simpa using hr
    simp [searchOp, hb, hnm]
  · intro hb hr
    have hf : [text].filter (fun t => !pyBlank t) = [text] := by simp [hb]
    have hemb : get_embeddings [text] 32 emb = [emb text] := by
      rw [get_embeddings_eq_map _ _ _ (by omega), hf]
      rfl
    have hcalls : embeddingCalls [text] 32 = [[text]] := by
      unfold embeddingCalls
      rw [hf]
      rfl
    unfold searchOp
    rw [hb, hr]
    simp only [Bool.false_eq_true, if_false, Bool.not_true, if_true]
    rw [hemb, hcalls]
    rfl

/-- C7 counterexample: a blank query against an unregistered name is
rejected as `EmptyQuery` by the request validator, not as
`InvalidCollection` as the claim's first clause requires. -/
theorem search_blank_unregistered_counterexample :
    searchOp [] "" "demo" (fun _ => (0 : Nat)) = (.emptyQuery, 0) ∧
    "demo" ∉ ([] : List String) ∧
    (searchOp [] "" "demo" (fun _ => (0 : Nat))).1
      ≠ SearchOutcome.invalidCollection := by decide

/-- C7 witness: the three guard cases at concrete inputs. -/
theorem search_spec_witness :
    pyBlank "hi" = false ∧
    searchOp ["demo"] "hi" "demo" (fun t => t.length)
      = (.results "demo" 2 5, 1) ∧
    searchOp ["demo"] "hi" "other" (fun t => t.length)
      = (.invalidCollection, 0) :=
  ⟨by decide,
   ((search_spec ["demo"] "hi" "demo" (fun t => t.length)).2.2 (by decide)
      (by decide)).trans (by decide),
   (search_spec ["demo"] "hi" "other" (fun t => t.length)).2.1 (by decide)
      (by decide)⟩

/-! ## Reindex (`index_repository`, app.py) -/

inductive IndexStep where
  | walkRepo (path : String)
  | embedCall (inputs : List String)
  | clearPoints (collection : String)
  | upsertCall (collection : String) (points : Nat)
deriving DecidableEq

/-- `index_repository` as the ordered trace of external operations it
performs, and the points it stores: first the repository walk
(`process_repositories`), then the embedding-service calls made by
`get_embeddings`, then the delete-all-points call, then the batched
upserts of `store_chunks_multi`.  The walk result is an oracle mapping
the configured path to chunks. -/
def index_repository (repo_name : String) (cfg : RepoConfig)
    (walk : String → List (CodeChunk String)) (emb : String → V) :
    List IndexStep × List (QPoint V) :=
  let chunks := walk cfg.path
  let contents := chunks.map (fun c => c.content)
  let embs := get_embeddings contents 32 emb
  let points := mkPoints chunks embs
  (IndexStep.walkRepo cfg.path ::
      ((embeddingCalls contents 32).map IndexStep.embedCall ++
        IndexStep.clearPoints repo_name ::
          (store_chunks_multi chunks embs).map
            (fun b => IndexStep.upsertCall repo_name b.length)),
    points)

/-- Walk oracle used by concrete reindex evaluations. -/
def demoWalk : String → List (CodeChunk String) := fun _ => [demoChunkA]

/-- C8 counterexample: the trace of `index_repository` starts with the
walk, then embeds, and only then clears the collection's points — the
clear is not the first step as claimed. -/
theorem reindex_clear_not_first :
    (index_repository "demo" demoConfig demoWalk
        (fun t => t.length) : List IndexStep × List (QPoint Nat)).1
      = [IndexStep.walkRepo "/repos/demo", IndexStep.embedCall ["def f(): pass"],
         IndexStep.clearPoints "demo", IndexStep.upsertCall "demo" 1] ∧
    (index_repository "demo" demoConfig demoWalk
        (fun t => t.length) : List IndexStep × List (QPoint Nat)).1[0]?
      ≠ some (IndexStep.clearPoints "demo") := by decide

theorem index_repository_trace_eq (repo_name : String) (cfg : RepoConfig)
    (walk : String → List (CodeChunk String)) (emb : String → V) :
    (index_repository repo_name cfg walk emb).1 =
      IndexStep.walkRepo cfg.path ::
        ((embeddingCalls ((walk cfg.path).map (fun c => c.content)) 32).map
            IndexStep.embedCall ++
          IndexStep.clearPoints repo_name ::
            (store_chunks_multi (walk cfg.path)
                (get_embeddings ((walk cfg.path).map (fun c => c.content)) 32
                  emb)).map
              (fun b => IndexStep.upsertCall repo_name b.length)) := rfl

/-- C8 (amended): in every `index_repository` run the first step is the
walk, every embedding call precedes the clear, and every upsert follows
it: the actual order is walk/chunk, embed, clear, upsert. -/
theorem reindex_step_order (repo_name : String) (cfg : RepoConfig)
    (walk : String → List (CodeChunk String)) (emb : String → V) :
    ∃ k : Nat,
      (index_repository repo_name cfg walk emb).1[k]?
        = some (IndexStep.clearPoints repo_name) ∧
      (index_repository repo_name cfg walk emb).1[0]?
        = some (IndexStep.walkRepo cfg.path) ∧
      (∀ j ins, (index_repository repo_name cfg walk emb).1[j]?
          = some (IndexStep.embedCall ins) → j < k) ∧
      (∀ j c n, (index_repository repo_name cfg walk emb).1[j]?
          = some (IndexStep.upsertCall c n) → k < j) := by
  rw [index_repository_trace_eq]
  set E := (embeddingCalls ((walk cfg.path).map (fun c => c.content)) 32).map
    IndexStep.embedCall with hE
  set U := (store_chunks_multi (walk cfg.path)
      (get_embeddings ((walk cfg.path).map (fun c => c.content)) 32 emb)).map
    (fun b => IndexStep.upsertCall repo_name b.length) with hU
  have hEmem : ∀ x ∈ E, ∃ ins, x = IndexStep.embedCall ins := by
    intro x hx
    rw [hE] at hx
    obtain ⟨b, _, hbx⟩ := List.mem_map.mp hx
    exact ⟨b, hbx.symm⟩
  have hUmem : ∀ x ∈ U, ∃ m, x = IndexStep.upsertCall repo_name m := by
    intro x hx
    rw [hU] at hx
    obtain ⟨b, _, hbx⟩ := List.mem_map.mp hx
    exact ⟨b.length, hbx.symm⟩
  refine ⟨1 + E.length, ?_, by simp, ?_, ?_⟩
  · rw [Nat.add_comm, List.getElem?_cons_succ,
      List.getElem?_append_right (Nat.le_refl E.length), Nat.sub_self]
    simp
  · intro j ins hj
    match j with
    | 0 => simp at hj
    | i + 1 =>
      rw [List.getElem?_cons_succ] at hj
      by_cases hi : i < E.length
      · omega
      · rw [List.getElem?_append_right (by omega)] at hj
        rcases hd : i - E.length with _ | d
        · rw [hd, List.getElem?_cons_zero] at hj
          simp at hj
        · rw [hd, List.getElem?_cons_succ] at hj
          have hmem : IndexStep.embedCall ins ∈ U := by
            obtain ⟨hlt, hget⟩ := List.getElem?_eq_some.mp hj
            exact hget ▸ List.getElem_mem hlt
          obtain ⟨m, hm⟩ := hUmem _ hmem
          simp at hm
  · intro j c n hj
    match j with
    | 0 => simp at hj
    | i + 1 =>
      rw [List.getElem?_cons_succ] at hj
      by_cases hi : i < E.length
      · exfalso
        rw [List.getElem?_append_left hi] at hj
        have hmem : IndexStep.upsertCall c n ∈ E := by
          obtain ⟨hlt, hget⟩ := List.getElem?_eq_some.mp hj
          exact hget ▸ List.getElem_mem hlt
        obtain ⟨ins, hins⟩ := hEmem _ hmem
        simp at hins
      · rw [List.getElem?_append_right (by omega)] at hj
        rcases hd : i - E.length with _ | d
        · rw [hd, List.getElem?_cons_zero] at hj
          simp at hj
        · omega

/-- C8 witness: the step-order theorem at a concrete one-chunk walk. -/
theorem reindex_step_order_witness :
    ∃ k : Nat,
      (index_repository "demo" demoConfig demoWalk
          (fun t => t.length) : List IndexStep × List (QPoint Nat)).1[k]?
        = some (IndexStep.clearPoints "demo") ∧
      (index_repository "demo" demoConfig demoWalk
          (fun t => t.length) : List IndexStep × List (QPoint Nat)).1[0]?
        = some (IndexStep.walkRepo demoConfig.path) ∧
      (∀ j ins, (index_repository "demo" demoConfig demoWalk
            (fun t => t.length) : List IndexStep × List (QPoint Nat)).1[j]?
          = some (IndexStep.embedCall ins) → j < k) ∧
      (∀ j c n, (index_repository "demo" demoConfig demoWalk
            (fun t => t.length) : List IndexStep × List (QPoint Nat)).1[j]?
          = some (IndexStep.upsertCall c n) → k < j) :=
  reindex_step_order "demo" demoConfig demoWalk (fun t => t.length)

/-! ## Change watcher (`watcher.py`)

`RepoEventHandler` holds a set of pending repository names and the time
of the last flush.  The set is modelled as a duplicate-free list in
insertion order; `time.time()` values are naturals; the HTTP outcome of
`trigger_reindex` (which catches its own errors and only logs them) is an
oracle `ok`. -/

structure WatcherState where
  pending_events : List String
  last_processed_time : Nat
deriving DecidableEq

/-- `set.add`: append unless already present. -/
def addPending (s : List String) (n : String) : List String :=
  if n ∈ s then s else s ++ [n]

/-- `os.path.basename(os.path.dirname(p))` for a path given by its
segments: the name of the changed file's immediate parent directory. -/
def repoNameOf (segments : List String) : String :=
  segments.dropLast.getLastD ""

/-- `RepoEventHandler.on_any_event`: ignore directory events, otherwise
record the containing repository name in the pending set. -/
def on_any_event (st : WatcherState) (is_directory : Bool)
    (src_path : List String) : WatcherState :=
  if is_directory then st
  else { st with
    pending_events := addPending st.pending_events (repoNameOf src_path) }

/-- `RepoEventHandler.process_events`: when more than 5 seconds have
passed since the last flush and events are pending, attempt a reindex
trigger for every pending name (recording each attempt's outcome), then
clear the whole set and remember the flush time; otherwise do nothing.
Returns the new state and the attempted triggers with their outcomes. -/
def process_events (st : WatcherState) (now : Nat) (ok : String → Bool) :
    WatcherState × List (String × Bool) :=
  if 5 < now - st.last_processed_time ∧ st.pending_events ≠ [] then
    (⟨[], now⟩, st.pending_events.map (fun n => (n, ok n)))
  else (st, [])

/-- One input to the watcher loop: a filesystem event, or one iteration
of the 1-second polling loop calling `process_events` at time `t`. -/
inductive WInput where
  | fsEvent (is_directory : Bool) (src_path : List String) (time : Nat)
  | tick (time : Nat)
deriving DecidableEq

def watchStep (ok : String → Bool) (st : WatcherState) (inp : WInput) :
    WatcherState × List (Nat × String × Bool) :=
  match inp with
  | .fsEvent d p _ => (on_any_event st d p, [])
  | .tick t =>
    let r := process_events st t ok
    (r.1, r.2.map (fun a => (t, a.1, a.2)))

/-- The watcher main loop over a sequence of inputs, collecting the
attempted reindex triggers as `(time, repo, outcome)`. -/
def runWatcher (ok : String → Bool) :
    WatcherState → List WInput → WatcherState × List (Nat × String × Bool)
  | st, [] => (st, [])
  | st, i :: rest =>
    let r := watchStep ok st i
    let r2 := runWatcher ok r.1 rest
    (r2.1, r.2 ++ r2.2)

/-- C5 counterexample: with one pending repository whose reindex trigger
fails (outcome oracle `false`), the flush still removes the name from the
pending set — a name with an unsuccessful trigger does not remain for a
later flush. -/
theorem pending_cleared_despite_failed_trigger :
    (process_events ⟨["demo"], 0⟩ 10 (fun _ => false)).1 = ⟨[], 10⟩ ∧
    (process_events ⟨["demo"], 0⟩ 10 (fun _ => false)).2 = [("demo", false)] ∧
    "demo" ∉ (process_events ⟨["demo"], 0⟩ 10 (fun _ => false)).1.pending_events := by
  decide

/-- C5 (amended): a repository name is removed from the pending set only
by a flush that attempted a reindex trigger for it — the attempt, not its
success, is what clears the name (the whole set is cleared regardless of
each trigger's outcome). -/
theorem pending_removed_only_with_attempt (st : WatcherState) (now : Nat)
    (ok : String → Bool) (n : String)
    (hmem : n ∈ st.pending_events)
    (hgone : n ∉ (process_events st now ok).1.pending_events) :
    (n, ok n) ∈ (process_events st now ok).2 := by
  unfold process_events at hgone ⊢
  by_cases hc : 5 < now - st.last_processed_time ∧ st.pending_events ≠ []
  · rw [if_pos hc]
    exact List.mem_map_of_mem _ hmem
  · rw [if_neg hc] at hgone
    exact absurd hmem hgone

/-- C5 witness: the amended removal property at a concrete state. -/
theorem pending_removed_only_with_attempt_witness :
    ("demo", false) ∈ (process_events ⟨["demo"], 0⟩ 10 (fun _ => false)).2 :=
  pending_removed_only_with_attempt ⟨["demo"], 0⟩ 10 (fun _ => false) "demo"
    (by decide) (by decide)

/-- C6 counterexample: starting from a fresh watcher (last flush at time
0), a file event for `demo` at time 4 followed by the poll tick at time 6
fires the reindex trigger for `demo`, although `demo`'s last event is
only 2 seconds old — the debounce compares against the last flush time,
not the repository's last event time. -/
theorem debounce_fires_within_event_window :
    runWatcher (fun _ => true) ⟨[], 0⟩
        [WInput.fsEvent false ["app", "codebase", "demo", "a.py"] 4,
         WInput.tick 6]
      = (⟨[], 6⟩, [(6, "demo", true)]) ∧
    ¬(5 < 6 - 4) := by decide

theorem addPending_nodup (s : List String) (n : String) (h : s.Nodup) :
    (addPending s n).Nodup := by
  unfold addPending
  by_cases hm : n ∈ s
  · rw [if_pos hm]
    exact h
  · rw [if_neg hm]
    simp [List.nodup_append, h, hm]

/-- C6 (amended): a flush fires only when more than 5 seconds have
passed since the previous flush (not since the repository's last event);
when it fires it attempts exactly one trigger per pending repository
(the pending set is duplicate-free and stays so under event recording),
so an event burst between two flushes yields one trigger per repository,
not one per event. -/
theorem debounce_flush_spec (st : WatcherState) (now : Nat)
    (ok : String → Bool) (hnd : st.pending_events.Nodup) :
    ((process_events st now ok).2 ≠ [] → 5 < now - st.last_processed_time) ∧
    ((process_events st now ok).2.map (fun a => a.1)).Nodup ∧
    (∀ r, r ∈ (process_events st now ok).2.map (fun a => a.1) ↔
        (5 < now - st.last_processed_time ∧ r ∈ st.pending_events)) ∧
    (∀ d p, ((on_any_event st d p).pending_events).Nodup) := by
  have hmapfst : ∀ l : List String,
      (l.map (fun n => (n, ok n))).map (fun a : String × Bool => a.1) = l := by
    intro l
    rw [List.map_map]
    exact List.map_id _
  refine ⟨?_, ?_, ?_, ?_⟩
  · intro hne
    unfold process_events at hne
    by_cases hc : 5 < now - st.last_processed_time ∧ st.pending_events ≠ []
    · exact hc.1
    · rw [if_neg hc] at hne
      exact absurd rfl hne
  · unfold process_events
    by_cases hc : 5 < now - st.last_processed_time ∧ st.pending_events ≠ []
    · rw [if_pos hc]
      rw [hmapfst st.pending_events]
      exact hnd
    · rw [if_neg hc]
      exact List.nodup_nil
  · intro r
    unfold process_events
    by_cases hc : 5 < now - st.last_processed_time ∧ st.pending_events ≠ []
    · rw [if_pos hc]
      rw [hmapfst st.pending_events]
      exact ⟨fun hr => ⟨hc.1, hr⟩, fun hr => hr.2⟩
    · rw [if_neg hc]
      simp only [List.map_nil, List.not_mem_nil, false_iff]
      intro hr
      exact hc ⟨hr.1, List.ne_nil_of_mem hr.2⟩
  · intro d p
    unfold on_any_event
    by_cases hd : d = true
    · rw [if_pos hd]
      exact hnd
    · rw [if_neg hd]
      exact addPending_nodup _ _ hnd

/-- C6 witness: two events for `demo` between flushes leave a single
pending entry, and the flush at time 6 attempts exactly one trigger. -/
theorem debounce_flush_spec_witness :
    List.Nodup ["demo"] ∧
    (on_any_event (on_any_event ⟨[], 0⟩ false ["app", "codebase", "demo", "a.py"])
        false ["app", "codebase", "demo", "b.py"]).pending_events = ["demo"] ∧
    ((process_events ⟨["demo"], 0⟩ 6 (fun _ => true)).2.map (fun a => a.1)).Nodup :=
  ⟨by decide, by decide,
   (debounce_flush_spec ⟨["demo"], 0⟩ 6 (fun _ => true) (by decide)).2.1⟩

end CodebaseIndexer
